import Mathlib

/-!
Verification of the MAGI integration and scoring engine.

Each definition below is a shallow embedding of a function from the
repository sources (src/workflow/magi_workflow_scoring.py and
src/workflow/workflow_helpers.py).  Pandas float columns that may hold
NaN (missing values) are modelled as Option-valued fields; pandas NaN
comparison semantics (NaN == NaN is False, NaN != NaN is True,
min/max skip NaN) are modelled explicitly.  Python 2 integer division
is Nat division; numeric scores are rationals where the source only
adds, multiplies and compares, and reals where the source takes
logarithms and exponentials.
-/

namespace Magi

/-! ### Reciprocal agreement (magi_workflow_scoring.reciprocal_agreement)

One row of the merged forward/reverse table.  The reaction-id columns
are numeric after pd.to_numeric, with NaN for a missing direction; the
e-score columns likewise.  Missing values are `none`. -/

structure MergedRow where
  reaction_id_r2g : Option ℚ
  reaction_id_g2r : Option ℚ
  e_score_r2g : Option ℚ
  e_score_g2r : Option ℚ
deriving DecidableEq

/-- Pandas elementwise equality of two possibly-NaN values:
NaN compares unequal to everything, including another NaN. -/
def pandasEq : Option ℚ → Option ℚ → Bool
  | some x, some y => x == y
  | _, _ => false

/-- Pandas DataFrame.min(axis=1) over two columns: NaN entries are
skipped; the result is NaN only when both entries are NaN. -/
def skipnaMin : Option ℚ → Option ℚ → Option ℚ
  | some x, some y => some (min x y)
  | some x, none => some x
  | none, some y => some y
  | none, none => none

/-- Pandas DataFrame.max(axis=1) over two columns, skipping NaN. -/
def skipnaMax : Option ℚ → Option ℚ → Option ℚ
  | some x, some y => some (max x y)
  | some x, none => some x
  | none, some y => some y
  | none, none => none

/-- The close-disagreement test of reciprocal_agreement:
min(e_score_r2g, e_score_g2r) >= max(e_score_r2g, e_score_g2r) * closeness_threshold,
with pandas skipna min/max; a comparison against NaN is False. -/
def isClose (closeness_threshold : ℚ) (r : MergedRow) : Bool :=
  match skipnaMin r.e_score_r2g r.e_score_g2r, skipnaMax r.e_score_r2g r.e_score_g2r with
  | some mn, some mx => decide (mn ≥ mx * closeness_threshold)
  | _, _ => false

/-- Embedding of reciprocal_agreement (magi_workflow_scoring.py lines
217-236, identical code in workflow_helpers.py lines 967-986), per row.
The source performs four sequential in-place assignments to the
reciprocal_score column; each `let` below is one assignment, and the
order of the assignments is the order of the source. -/
def reciprocal_agreement (closeness_threshold : ℚ) (r : MergedRow) : ℚ :=
  let s1 : Option ℚ :=
    if pandasEq r.reaction_id_r2g r.reaction_id_g2r then some 2 else none
  let s2 : Option ℚ :=
    if !pandasEq r.reaction_id_r2g r.reaction_id_g2r && isClose closeness_threshold r
    then some 1 else s1
  let s3 : ℚ := s2.getD (1/100)
  if r.e_score_r2g = none ∨ r.e_score_g2r = none then 1/10 else s3

/-- The spec's description of reciprocal_agreement as an ordered rule
sequence in which the missing-score override beats the other rules. -/
def reciprocal_spec (closeness_threshold : ℚ) (r : MergedRow) : ℚ :=
  if r.e_score_r2g = none ∨ r.e_score_g2r = none then 1/10
  else if pandasEq r.reaction_id_r2g r.reaction_id_g2r then 2
  else if isClose closeness_threshold r then 1
  else 1/100

/-- C1: reciprocal_agreement realises the ordered rule sequence of the
spec (missing e-score overrides everything to 0.1; otherwise equal ids
give 2.0, close unequal ids give 1.0, non-close unequal ids give 0.01),
and consequently every output value lies in {2, 1, 0.1, 0.01}. -/
theorem reciprocal_agreement_rule_sequence (closeness_threshold : ℚ) (r : MergedRow) :
    reciprocal_agreement closeness_threshold r = reciprocal_spec closeness_threshold r ∧
    reciprocal_agreement closeness_threshold r ∈ ({2, 1, 1/10, 1/100} : Set ℚ) := by
  unfold reciprocal_agreement reciprocal_spec
  by_cases h3 : r.e_score_r2g = none ∨ r.e_score_g2r = none
  · simp [h3]
  · cases h1 : pandasEq r.reaction_id_r2g r.reaction_id_g2r <;>
      cases h2 : isClose closeness_threshold r <;>
      simp [h1, h2, h3, Set.mem_insert_iff]

/-- C10: a row with no reaction id in either direction can never score
2.0 (NaN reaction ids are never treated as equal), and the row with
nothing in either direction scores 0.1. -/
theorem reciprocal_agreement_null_ids (closeness_threshold : ℚ) (e₁ e₂ : Option ℚ) :
    reciprocal_agreement closeness_threshold ⟨none, none, e₁, e₂⟩ ≠ 2 ∧
    reciprocal_agreement closeness_threshold ⟨none, none, none, none⟩ = 1/10 := by
  constructor
  · unfold reciprocal_agreement
    cases e₁ <;> cases e₂ <;>
      simp [pandasEq, isClose, skipnaMin, skipnaMax] <;>
      (try split) <;> norm_num
  · rfl

/-- C10 witness: at the default closeness threshold 0.75, the all-null
row scores 0.1 and does not score 2.0. -/
theorem reciprocal_agreement_null_ids_witness :
    reciprocal_agreement (3/4) ⟨none, none, none, none⟩ = 1/10 ∧
    reciprocal_agreement (3/4) ⟨none, none, none, none⟩ ≠ 2 :=
  ⟨(reciprocal_agreement_null_ids (3/4) none none).2,
    (reciprocal_agreement_null_ids (3/4) none none).1⟩

/-! ### Work partitioning (workflow_helpers.partition_indexes) -/

/-- The loop body of partition_indexes: one iteration per remaining
partition, carrying the running chunk index i and the running start
position a; b = a + chunksize + (i < remainder) as in the source,
where the Python boolean is 0 or 1. -/
def partitionGo (chunksize remainder : ℕ) : ℕ → ℕ → ℕ → List (ℕ × ℕ)
  | 0, _, _ => []
  | k + 1, i, a =>
    (a, a + chunksize + (if i < remainder then 1 else 0)) ::
      partitionGo chunksize remainder k (i + 1)
        (a + chunksize + (if i < remainder then 1 else 0))

/-- Embedding of partition_indexes (workflow_helpers.py lines 382-424).
Python 2 integer division is Nat division; remainder is computed by the
subtraction of the source, not by the mod operator. -/
def partition_indexes (totalsize numberofpartitions offset : ℕ) : List (ℕ × ℕ) :=
  let chunksize := totalsize / numberofpartitions
  let remainder := totalsize - chunksize * numberofpartitions
  (partitionGo chunksize remainder numberofpartitions 0 0).map
    (fun p => (p.1 + offset, p.2 + offset))

/-- Closed form for the partition loop: the j-th emitted chunk runs from
a + j*chunksize + (extra elements granted between index i and i+j) to
the same expression at j+1. -/
theorem partitionGo_closed (cs r : ℕ) : ∀ (k i a : ℕ),
    partitionGo cs r k i a =
      (List.range k).map (fun j =>
        (a + (j * cs + (min (i + j) r - min i r)),
         a + ((j + 1) * cs + (min (i + (j + 1)) r - min i r)))) := by
  intro k
  induction k with
  | zero => simp [partitionGo]
  | succ k ih =>
    intro i a
    rw [partitionGo, List.range_succ_eq_map, List.map_cons, List.map_map, ih]
    refine congrArg₂ List.cons ?_ (List.map_congr_left ?_)
    · by_cases h : i < r <;> simp [h] <;> omega
    · intro j hj
      simp only [Function.comp_apply]
      refine Prod.ext ?_ ?_ <;> simp only [] <;>
        by_cases h : i < r <;>
        simp [h, Nat.succ_mul, Nat.add_mul] <;> omega

/-- The partition of [0, N) into C chunks, offset 0, in closed form. -/
theorem partition_indexes_closed (N C : ℕ) :
    partition_indexes N C 0 =
      (List.range C).map (fun j =>
        (j * (N / C) + min j (N % C), (j + 1) * (N / C) + min (j + 1) (N % C))) := by
  have hdm := Nat.div_add_mod N C
  rw [Nat.mul_comm] at hdm
  have hrem : N - N / C * C = N % C := by omega
  simp only [partition_indexes]
  rw [hrem, partitionGo_closed, List.map_map]
  refine List.map_congr_left ?_
  intro j hj
  simp

/-- Sum of the chunk sizes in closed form. -/
theorem partition_sizes_sum (cs r : ℕ) : ∀ C,
    ((List.range C).map (fun j => cs + if j < r then 1 else 0)).sum = C * cs + min C r := by
  intro C
  induction C with
  | zero => simp
  | succ C ih =>
    rw [List.range_succ, List.map_append, List.sum_append, ih]
    by_cases h : C < r <;> simp [h, Nat.succ_mul] <;> omega

/-- C5: partition_indexes over a list of length N with C workers
(1 <= C <= N) produces exactly C chunks in the stated closed form
(contiguous: chunk j ends where chunk j+1 starts; order-preserving),
with chunk j of size N/C plus one extra exactly when j < N mod C, and
the sizes sum to N. -/
theorem partition_indexes_spec (N C : ℕ) (hC : 1 ≤ C) (hCN : C ≤ N) :
    (partition_indexes N C 0).length = C ∧
    partition_indexes N C 0 =
      (List.range C).map (fun j =>
        (j * (N / C) + min j (N % C), (j + 1) * (N / C) + min (j + 1) (N % C))) ∧
    (partition_indexes N C 0).map (fun p => p.2 - p.1) =
      (List.range C).map (fun j => N / C + if j < N % C then 1 else 0) ∧
    ((partition_indexes N C 0).map (fun p => p.2 - p.1)).sum = N ∧
    (∀ p ∈ partition_indexes N C 0, p.2 - p.1 = N / C ∨ p.2 - p.1 = N / C + 1) := by
  have hclosed := partition_indexes_closed N C
  have hsizes : (partition_indexes N C 0).map (fun p => p.2 - p.1) =
      (List.range C).map (fun j => N / C + if j < N % C then 1 else 0) := by
    rw [hclosed, List.map_map]
    generalize N / C = q
    generalize N % C = s
    refine List.map_congr_left ?_
    intro j hj
    simp only [Function.comp_apply]
    have hmul : (j + 1) * q = j * q + q := Nat.succ_mul _ _
    by_cases h : j < s
    · have h1 : min (j + 1) s = j + 1 := by omega
      have h2 : min j s = j := by omega
      simp only [hmul, h1, h2, if_pos h]
      omega
    · have h1 : min (j + 1) s = s := by omega
      have h2 : min j s = s := by omega
      simp only [hmul, h1, h2, if_neg h]
      omega
  refine ⟨?_, hclosed, hsizes, ?_, ?_⟩
  · rw [hclosed, List.length_map, List.length_range]
  · rw [hsizes, partition_sizes_sum]
    have hdm := Nat.div_add_mod N C
    have hlt : N % C < C := Nat.mod_lt _ hC
    omega
  · intro p hp
    have hmem : p.2 - p.1 ∈ (partition_indexes N C 0).map (fun q => q.2 - q.1) :=
      List.mem_map_of_mem _ hp
    rw [hsizes] at hmem
    obtain ⟨j, hj, hjeq⟩ := List.mem_map.mp hmem
    by_cases h : j < N % C <;> simp [h] at hjeq <;> omega

/-- C5 witness: 7 queries over 3 workers give 3 chunks of sizes [3, 2, 2]. -/
theorem partition_indexes_spec_witness :
    (partition_indexes 7 3 0).length = 3 ∧
    (partition_indexes 7 3 0).map (fun p => p.2 - p.1) = [3, 2, 2] :=
  ⟨(partition_indexes_spec 7 3 (by decide) (by decide)).1, by decide⟩

/-! ### Blast score conversion and multi_blast control flow
(workflow_helpers.multi_blast, lines 450-540) -/

/-- The e-value-to-score conversion of multi_blast (lines 530-535):
e_score = -log10(evalue), and rows whose e_score is +inf (exactly the
rows with evalue 0, for nonnegative e-values) are set to 200. -/
noncomputable def e_score (evalue : ℝ) : ℝ :=
  if evalue = 0 then 200 else -Real.logb 10 evalue

/-- Result of the multi_blast run after the subprocess call: either the
converted results table or the raised RuntimeError, together with
whether the rmtree(cwd) cleanup at the end of the function executed. -/
structure MultiBlastOutcome where
  outcome : Except String (List ℝ)
  tmpdirDeleted : Bool

/-- Embedding of the tail of multi_blast (lines 513-540): read the
aggregated error log; if it is non-empty and raise_blast_error is set,
raise RuntimeError — the source raises at line 520, before the
rmtree(cwd) call at line 538, so the temporary directory survives on
that path.  Otherwise collect the chunk outputs, convert e-values to
scores and delete the temporary directory. -/
noncomputable def multi_blast_model (errlog : String) (raise_blast_error : Bool)
    (evalues : List ℝ) : MultiBlastOutcome :=
  if errlog ≠ "" ∧ raise_blast_error then
    { outcome := Except.error "blast had an error message", tmpdirDeleted := false }
  else
    { outcome := Except.ok (evalues.map e_score), tmpdirDeleted := true }

/-- C4 counterexample: with a non-empty aggregated error log and
raise_blast_error set, multi_blast raises before the cleanup and the
temporary per-chunk directory is not deleted — cleanup is not
unconditional. -/
theorem multi_blast_cleanup_cex :
    (multi_blast_model "blast had an error message" true []).tmpdirDeleted = false := by
  rw [multi_blast_model, if_pos (by simp)]

/-- C4 amended: multi_blast deletes the temporary per-chunk directory
exactly on the paths that do not raise — that is, whenever the
aggregated error log is empty or raise_blast_error is false; on the
path where the error log is non-empty and raise_blast_error is true,
the function raises first and the directory is not deleted. -/
theorem multi_blast_cleanup_cond (errlog : String) (raise_blast_error : Bool)
    (evalues : List ℝ) :
    ((multi_blast_model errlog raise_blast_error evalues).tmpdirDeleted = false ↔
      (errlog ≠ "" ∧ raise_blast_error = true)) ∧
    ((∃ t, (multi_blast_model errlog raise_blast_error evalues).outcome = Except.ok t) ↔
      (multi_blast_model errlog raise_blast_error evalues).tmpdirDeleted = true) := by
  unfold multi_blast_model
  by_cases h : errlog ≠ "" ∧ raise_blast_error
  · simp [h, h.1, h.2]
  · simp [h]

/-- C4 witness: with an empty error log, the success path runs and the
temporary directory is deleted. -/
theorem multi_blast_cleanup_cond_witness :
    (multi_blast_model "" true []).tmpdirDeleted = true := by
  cases hb : (multi_blast_model "" true []).tmpdirDeleted
  · exact absurd rfl ((multi_blast_cleanup_cond "" true []).1.mp hb).1
  · rfl

/-- C2 counterexample: an e-value of 10 (attainable, since the blast
invocation does not restrict e-values to at most 1 before conversion)
yields e_score = -1, which is negative: the "score >= 0" part of the
claim fails on the code. -/
theorem e_score_negative_cex : e_score 10 = -1 ∧ ¬ (0 ≤ e_score 10) := by
  have h10 : (10 : ℝ) ≠ 0 := by norm_num
  have h : e_score 10 = -Real.logb 10 10 := by rw [e_score, if_neg h10]
  rw [h, Real.logb_self_eq_one (by norm_num)]
  norm_num

/-- C2 amended: e_score is exactly -log10 of the e-value for non-zero
e-values, an e-value of exactly 0 maps to exactly 200 (so the score is
a real number, never an infinity), and the score is nonnegative for
e-values in (0, 1]; e-values above 1 give negative scores. -/
theorem e_score_props (e : ℝ) (h0 : 0 < e) (h1 : e ≤ 1) :
    e_score 0 = 200 ∧ e_score e = -Real.logb 10 e ∧ 0 ≤ e_score e := by
  have hne : e ≠ 0 := ne_of_gt h0
  have heq : e_score e = -Real.logb 10 e := by rw [e_score, if_neg hne]
  refine ⟨by rw [e_score, if_pos rfl], heq, ?_⟩
  rw [heq]
  have hlog : Real.logb 10 e ≤ 0 :=
    Real.logb_nonpos (by norm_num) (le_of_lt h0) h1
  linarith

/-- C2 witness: at e-value 1 the hypotheses hold and the score is 0,
which is nonnegative; and the zero e-value maps to 200. -/
theorem e_score_props_witness :
    (0 : ℝ) < 1 ∧ (e_score 0 = 200 ∧ e_score 1 = -Real.logb 10 1 ∧ 0 ≤ e_score 1) :=
  ⟨by norm_num, e_score_props 1 (by norm_num) (by norm_num)⟩

/-! ### Pandas sort_values / drop_duplicates primitives

Pandas drop_duplicates keeps the first occurrence of each key;
sort_values orders by the given key.  A stable insertion sort models
the sort (the claims only depend on the relative order of rows with
distinct sort keys, on which every pandas sort agrees). -/

/-- Insert x into a list ordered by the boolean relation le, before the
first element that x compares le to. -/
def insertLe {α : Type} (le : α → α → Bool) (x : α) : List α → List α
  | [] => [x]
  | y :: ys => if le x y then x :: y :: ys else y :: insertLe le x ys

/-- Insertion sort by the boolean relation le. -/
def sortByKey {α : Type} (le : α → α → Bool) : List α → List α
  | [] => []
  | x :: xs => insertLe le x (sortByKey le xs)

/-- Drop rows whose key has already been emitted (seen accumulates the
keys of kept rows): pandas drop_duplicates keeping the first row. -/
def dedupFirstAux {α β : Type} [DecidableEq β] (key : α → β) (seen : List β) :
    List α → List α
  | [] => []
  | x :: xs =>
    if key x ∈ seen then dedupFirstAux key seen xs
    else x :: dedupFirstAux key (key x :: seen) xs

/-- Pandas drop_duplicates on a key, keeping the first occurrence. -/
def dedupFirst {α β : Type} [DecidableEq β] (key : α → β) (l : List α) : List α :=
  dedupFirstAux key [] l

theorem insertLe_perm {α : Type} (le : α → α → Bool) (x : α) :
    ∀ l : List α, (insertLe le x l).Perm (x :: l) := by
  intro l
  induction l with
  | nil => exact List.Perm.refl _
  | cons y ys ih =>
    rw [insertLe]
    by_cases h : le x y
    · rw [if_pos h]
    · rw [if_neg h]
      exact (ih.cons y).trans (List.Perm.swap x y ys)

theorem sortByKey_perm {α : Type} (le : α → α → Bool) :
    ∀ l : List α, (sortByKey le l).Perm l := by
  intro l
  induction l with
  | nil => exact List.Perm.refl _
  | cons x xs ih =>
    exact (insertLe_perm le x (sortByKey le xs)).trans (ih.cons x)

theorem insertLe_pairwise {α : Type} (le : α → α → Bool)
    (htot : ∀ a b, le a b = false → le b a = true)
    (htrans : ∀ a b c, le a b = true → le b c = true → le a c = true) (x : α) :
    ∀ l : List α, List.Pairwise (fun a b => le a b = true) l →
      List.Pairwise (fun a b => le a b = true) (insertLe le x l) := by
  intro l
  induction l with
  | nil => intro _; exact List.pairwise_singleton _ x
  | cons y ys ih =>
    intro hp
    obtain ⟨hy, hys⟩ := List.pairwise_cons.mp hp
    rw [insertLe]
    by_cases h : le x y
    · rw [if_pos h]
      refine List.pairwise_cons.mpr ⟨?_, hp⟩
      intro z hz
      rcases List.mem_cons.mp hz with rfl | hz
      · exact h
      · exact htrans x y z h (hy z hz)
    · rw [if_neg h]
      rw [Bool.not_eq_true] at h
      refine List.pairwise_cons.mpr ⟨?_, ih hys⟩
      intro z hz
      rcases List.mem_cons.mp ((insertLe_perm le x ys).mem_iff.mp hz) with rfl | hz
      · exact htot _ y h
      · exact hy z hz

theorem sortByKey_pairwise {α : Type} (le : α → α → Bool)
    (htot : ∀ a b, le a b = false → le b a = true)
    (htrans : ∀ a b c, le a b = true → le b c = true → le a c = true) :
    ∀ l : List α, List.Pairwise (fun a b => le a b = true) (sortByKey le l) := by
  intro l
  induction l with
  | nil => exact List.Pairwise.nil
  | cons x xs ih => exact insertLe_pairwise le htot htrans x _ ih

theorem dedupFirstAux_not_seen {α β : Type} [DecidableEq β] (key : α → β) :
    ∀ (l : List α) (seen : List β) (x : α),
      x ∈ dedupFirstAux key seen l → key x ∉ seen := by
  intro l
  induction l with
  | nil => intro seen x hx; simp [dedupFirstAux] at hx
  | cons a l' ih =>
    intro seen x hx
    rw [dedupFirstAux] at hx
    by_cases hs : key a ∈ seen
    · rw [if_pos hs] at hx
      exact ih seen x hx
    · rw [if_neg hs] at hx
      rcases List.mem_cons.mp hx with rfl | hx
      · exact hs
      · have := ih (key a :: seen) x hx
        intro hc
        exact this (List.mem_cons_of_mem _ hc)

theorem dedupFirstAux_sublist {α β : Type} [DecidableEq β] (key : α → β) :
    ∀ (l : List α) (seen : List β), (dedupFirstAux key seen l).Sublist l := by
  intro l
  induction l with
  | nil => intro seen; exact List.Sublist.refl _
  | cons a l' ih =>
    intro seen
    rw [dedupFirstAux]
    by_cases hs : key a ∈ seen
    · rw [if_pos hs]
      exact (ih seen).cons a
    · rw [if_neg hs]
      exact (ih (key a :: seen)).cons₂ a

theorem dedupFirstAux_min {α β : Type} [DecidableEq β] (key : α → β)
    (le : α → α → Bool) (hrefl : ∀ a, le a a = true) :
    ∀ (l : List α) (seen : List β),
      List.Pairwise (fun a b => le a b = true) l →
      ∀ x ∈ dedupFirstAux key seen l, ∀ y ∈ l, key y = key x → le x y = true := by
  intro l
  induction l with
  | nil => intro seen _ x hx; simp [dedupFirstAux] at hx
  | cons a l' ih =>
    intro seen hp x hx y hy hkey
    obtain ⟨ha, hl'⟩ := List.pairwise_cons.mp hp
    rw [dedupFirstAux] at hx
    by_cases hs : key a ∈ seen
    · rw [if_pos hs] at hx
      rcases List.mem_cons.mp hy with rfl | hy
      · exact absurd (hkey ▸ hs) (dedupFirstAux_not_seen key l' seen x hx)
      · exact ih seen hl' x hx y hy hkey
    · rw [if_neg hs] at hx
      rcases List.mem_cons.mp hx with rfl | hx
      · rcases List.mem_cons.mp hy with rfl | hy
        · exact hrefl _
        · exact ha y hy
      · have hxa : key x ≠ key a := by
          have := dedupFirstAux_not_seen key l' (key a :: seen) x hx
          intro hc
          exact this (hc ▸ List.mem_cons_self _ _)
        rcases List.mem_cons.mp hy with rfl | hy
        · exact absurd hkey.symm hxa
        · exact ih (key a :: seen) hl' x hx y hy hkey

/-! ### Compound-to-reaction cleanup
(workflow_helpers.connect_compound_to_reaction, lines 887-896) -/

/-- The note column of a compound-reaction link; the source stores the
strings 'direct' and 'flat tautomer', and 'direct' < 'flat tautomer'
in the string order pandas sorts by. -/
inductive Note where
  | direct : Note
  | flatTautomer : Note
deriving DecidableEq

/-- Rank realizing the string order of the two note values. -/
def Note.rank : Note → ℕ
  | Note.direct => 0
  | Note.flatTautomer => 1

/-- One row of the compound_results table built by
enumerate_compound_results: original_compound, level, neighbor,
reaction_id (none models the empty string recorded when no reaction
was found), note. -/
structure CRRow where
  original_compound : String
  level : ℕ
  neighbor : String
  reaction_id : Option ℤ
  note : Note
deriving DecidableEq

/-- The sort key order of sort_values(['note', 'level'], ascending=[True, True]):
lexicographic on (note, level). -/
def crLe (a b : CRRow) : Bool :=
  decide (a.note.rank < b.note.rank) ||
    (decide (a.note.rank = b.note.rank) && decide (a.level ≤ b.level))

/-- The drop_duplicates key ['original_compound', 'reaction_id']. -/
def crKey (r : CRRow) : String × Option ℤ :=
  (r.original_compound, r.reaction_id)

/-- The cleanup tail of connect_compound_to_reaction: sort ascending by
(note, level), then drop duplicate (original_compound, reaction_id)
pairs keeping the first row. -/
def connect_cleanup (l : List CRRow) : List CRRow :=
  dedupFirst crKey (sortByKey crLe l)

theorem crLe_refl (a : CRRow) : crLe a a = true := by
  simp [crLe]

theorem crLe_total (a b : CRRow) : crLe a b = false → crLe b a = true := by
  simp only [crLe, Bool.or_eq_false_iff, Bool.or_eq_true, Bool.and_eq_false_iff,
    Bool.and_eq_true, decide_eq_false_iff_not, decide_eq_true_eq]
  omega

theorem crLe_trans (a b c : CRRow) :
    crLe a b = true → crLe b c = true → crLe a c = true := by
  simp only [crLe, Bool.or_eq_true, Bool.and_eq_true, decide_eq_true_eq]
  omega

/-- C6: the cleanup of connect_compound_to_reaction returns rows in
ascending (note, level) order; every returned row is (note, level)-least
among all input rows sharing its (original_compound, reaction_id) key
(so a direct level-0 path beats a flat-tautomer path and beats any
higher-level neighbor path to the same reaction); and on the concrete
input where compound "CPD" reaches reaction 5 by a direct level-0
match, a flat-tautomer level-0 match and a direct level-2 neighbor
match, only the direct level-0 row survives. -/
theorem connect_cleanup_spec :
    (∀ l, List.Pairwise (fun a b => crLe a b = true) (connect_cleanup l)) ∧
    (∀ l, ∀ r ∈ connect_cleanup l, ∀ r' ∈ l, crKey r' = crKey r → crLe r r' = true) ∧
    connect_cleanup
      [⟨"CPD", 2, "NBR", some 5, Note.direct⟩,
       ⟨"CPD", 0, "", some 5, Note.flatTautomer⟩,
       ⟨"CPD", 0, "", some 5, Note.direct⟩] =
      [⟨"CPD", 0, "", some 5, Note.direct⟩] := by
  refine ⟨?_, ?_, by decide⟩
  · intro l
    exact List.Pairwise.sublist (dedupFirstAux_sublist crKey _ [])
      (sortByKey_pairwise crLe crLe_total crLe_trans l)
  · intro l r hr r' hr' hkey
    exact dedupFirstAux_min crKey crLe crLe_refl (sortByKey crLe l) []
      (sortByKey_pairwise crLe crLe_total crLe_trans l) r hr r'
      ((sortByKey_perm crLe l).mem_iff.mpr hr') hkey

/-- C6 witness: on the concrete three-row input, the kept direct
level-0 row is (note, level)-least relative to the direct level-2
neighbor row with the same (compound, reaction) key. -/
theorem connect_cleanup_spec_witness :
    crLe ⟨"CPD", 0, "", some 5, Note.direct⟩ ⟨"CPD", 2, "NBR", some 5, Note.direct⟩ = true :=
  connect_cleanup_spec.2.1
    [⟨"CPD", 2, "NBR", some 5, Note.direct⟩,
     ⟨"CPD", 0, "", some 5, Note.flatTautomer⟩,
     ⟨"CPD", 0, "", some 5, Note.direct⟩]
    ⟨"CPD", 0, "", some 5, Note.direct⟩ (by decide)
    ⟨"CPD", 2, "NBR", some 5, Note.direct⟩ (by decide) (by decide)

/-! ### ReactionLinker (workflow_helpers.refseq_to_reactions, lines 898-930) -/

/-- One row of a multi_blast results table; refseq_col selects which
of the two accession columns carries the reaction reference sequence,
so the joined-on value is carried here as the refseq field together
with the dedup column 'query acc.'. -/
structure BlastRow where
  query_acc : String
  subject_acc : String
  e_score : ℚ
deriving DecidableEq

/-- One row of the rxn_refseq_join table: (reaction_id, refseq_id). -/
structure RxnRefseq where
  reaction_id : ℤ
  refseq_id : String
deriving DecidableEq

/-- One row of the refseq_to_reactions output: the blast columns plus
the joined reaction_id (none = NaN from the left merge). -/
structure G2RRow where
  query_acc : String
  subject_acc : String
  e_score : ℚ
  reaction_id : Option ℤ
deriving DecidableEq

/-- Left merge of the blast table with the rxn_refseq_join table on
refseqOf row = refseq_id: every matching join row yields an output row;
a blast row with no match yields one row with reaction_id NaN. -/
def leftMergeRefseq (refseqOf : BlastRow → String) (blast : List BlastRow)
    (join : List RxnRefseq) : List G2RRow :=
  blast.flatMap (fun b =>
    let ms := join.filter (fun j => j.refseq_id = refseqOf b)
    if ms.isEmpty then [⟨b.query_acc, b.subject_acc, b.e_score, none⟩]
    else ms.map (fun j => ⟨b.query_acc, b.subject_acc, b.e_score, some j.reaction_id⟩))

/-- Embedding of refseq_to_reactions: merge the blast results with the
reaction/refseq join table, drop the refseq_id column.  The source then
evaluates result_table.sort_values(...).drop_duplicates(...) at lines
926-928 but never assigns the result (no inplace=True and no binding),
so the merged table is returned unchanged. -/
def refseq_to_reactions (refseqOf : BlastRow → String) (blast : List BlastRow)
    (join : List RxnRefseq) : List G2RRow :=
  leftMergeRefseq refseqOf blast join

/-- The sort order of the discarded expression: 'query acc.' ascending,
e_score descending. -/
def g2rLe (a b : G2RRow) : Bool :=
  decide (a.query_acc < b.query_acc) ||
    (decide (a.query_acc = b.query_acc) && decide (b.e_score ≤ a.e_score))

/-- The dedup key of the discarded expression: ('query acc.', reaction_id). -/
def g2rKey (r : G2RRow) : String × Option ℤ :=
  (r.query_acc, r.reaction_id)

/-- What the comment above lines 926-928 says the function does: keep
only the best-scoring hit per (query, reaction) pair. -/
def refseq_to_reactions_deduped (refseqOf : BlastRow → String) (blast : List BlastRow)
    (join : List RxnRefseq) : List G2RRow :=
  dedupFirst g2rKey (sortByKey g2rLe (leftMergeRefseq refseqOf blast join))

/-- C3: on a gene with two hits to two reference sequences of the same
reaction, refseq_to_reactions returns both (query, reaction) rows — the
sort-and-drop-duplicates expression in the source is computed but its
result is discarded — whereas the dedup described by the source's own
comment would keep only the score-100 row. -/
theorem refseq_to_reactions_keeps_duplicates :
    refseq_to_reactions (fun b => b.subject_acc)
      [⟨"g1", "s1", 100⟩, ⟨"g1", "s2", 50⟩]
      [⟨7, "s1"⟩, ⟨7, "s2"⟩] =
      [⟨"g1", "s1", 100, some 7⟩, ⟨"g1", "s2", 50, some 7⟩] ∧
    refseq_to_reactions_deduped (fun b => b.subject_acc)
      [⟨"g1", "s1", 100⟩, ⟨"g1", "s2", 50⟩]
      [⟨7, "s1"⟩, ⟨7, "s2"⟩] =
      [⟨"g1", "s1", 100, some 7⟩] := by
  constructor
  · rfl
  · simp [refseq_to_reactions_deduped, leftMergeRefseq, dedupFirst, dedupFirstAux,
      sortByKey, insertLe, g2rLe, g2rKey, List.filter, List.flatMap]

/-! ### Accurate mass search
(workflow_helpers.ppm_window, ppm_error, accurate_mass_search,
lines 1069-1146) -/

/-- One row of the compound database as used by accurate_mass_search. -/
structure CompoundEntry where
  mono_isotopic_molecular_weight : ℚ
  inchi_key : String
deriving DecidableEq

/-- One output row of accurate_mass_search; the no-match row stores
NaN in the numeric target fields and the string 'None' as compound. -/
structure MassRow where
  query_mass : ℚ
  target_mass : Option ℚ
  ppm_diff : Option ℚ
  original_compound : String
  compound_score : Option ℚ
deriving DecidableEq

/-- ppm_window(mass, ppm, result='error'): the amu half-width of the
ppm window around mass. -/
def ppm_window_error (mass ppm : ℚ) : ℚ :=
  ppm / 1000000 * mass

/-- ppm_error(mass, theoretical_mass): absolute ppm deviation of the
观 observed mass from the theoretical mass. -/
def ppm_error (mass theoretical_mass : ℚ) : ℚ :=
  |(mass - theoretical_mass) / theoretical_mass * 1000000|

/-- The block of rows that accurate_mass_search appends for one input
mass m: one row per compound whose weight is within the ppm window of
m, or a single null row when there is no such compound. -/
def mass_rows_for (compound_db : List CompoundEntry) (ppm m : ℚ) : List MassRow :=
  let slc := compound_db.filter
    (fun c => |c.mono_isotopic_molecular_weight - m| ≤ ppm_window_error m ppm)
  if slc.isEmpty then [⟨m, none, none, "None", none⟩]
  else slc.map (fun c =>
    ⟨m, some c.mono_isotopic_molecular_weight,
     some (ppm_error m c.mono_isotopic_molecular_weight), c.inchi_key,
     some (ppm + 1 - ppm_error m c.mono_isotopic_molecular_weight)⟩)

/-- Embedding of accurate_mass_search (lines 1108-1146): the data rows
accumulate over the input masses in order. -/
def accurate_mass_search (mass_list : List ℚ) (ppm : ℚ)
    (compound_db : List CompoundEntry) : List MassRow :=
  mass_list.flatMap (mass_rows_for compound_db ppm)

theorem mass_rows_for_query_mass (compound_db : List CompoundEntry) (ppm m : ℚ) :
    ∀ r ∈ mass_rows_for compound_db ppm m, r.query_mass = m := by
  intro r hr
  rw [mass_rows_for] at hr
  by_cases h : (compound_db.filter
      (fun c => |c.mono_isotopic_molecular_weight - m| ≤ ppm_window_error m ppm)).isEmpty
  · rw [if_pos h] at hr
    rcases List.mem_cons.mp hr with rfl | hr
    · rfl
    · simp at hr
  · rw [if_neg h] at hr
    obtain ⟨c, _, rfl⟩ := List.mem_map.mp hr
    rfl

/-- C7: accurate_mass_search is total — the block for any input mass is
never empty, so every mass in the input list contributes at least one
output row carrying that mass; every database compound within the ppm
window of an input mass yields a row carrying the compound's mass, its
ppm error and compound_score = ppm + 1 - ppm_error; and a mass matching
no compound yields exactly the single null row. -/
theorem accurate_mass_search_spec :
    (∀ (compound_db : List CompoundEntry) (ppm m : ℚ),
      mass_rows_for compound_db ppm m ≠ []) ∧
    (∀ (mass_list : List ℚ) (ppm : ℚ) (compound_db : List CompoundEntry) (m : ℚ),
      m ∈ mass_list →
      ∃ r ∈ accurate_mass_search mass_list ppm compound_db, r.query_mass = m) ∧
    (∀ (mass_list : List ℚ) (ppm : ℚ) (compound_db : List CompoundEntry)
      (m : ℚ) (c : CompoundEntry), m ∈ mass_list → c ∈ compound_db →
      |c.mono_isotopic_molecular_weight - m| ≤ ppm_window_error m ppm →
      (⟨m, some c.mono_isotopic_molecular_weight,
        some (ppm_error m c.mono_isotopic_molecular_weight), c.inchi_key,
        some (ppm + 1 - ppm_error m c.mono_isotopic_molecular_weight)⟩ : MassRow)
        ∈ accurate_mass_search mass_list ppm compound_db) ∧
    (∀ (compound_db : List CompoundEntry) (ppm m : ℚ),
      compound_db.filter
        (fun c => |c.mono_isotopic_molecular_weight - m| ≤ ppm_window_error m ppm) = [] →
      mass_rows_for compound_db ppm m = [⟨m, none, none, "None", none⟩]) := by
  have hne : ∀ (compound_db : List CompoundEntry) (ppm m : ℚ),
      mass_rows_for compound_db ppm m ≠ [] := by
    intro compound_db ppm m
    rw [mass_rows_for]
    by_cases h : (compound_db.filter
        (fun c => |c.mono_isotopic_molecular_weight - m| ≤ ppm_window_error m ppm)).isEmpty
    · rw [if_pos h]
      simp
    · rw [if_neg h]
      simp only [ne_eq, List.map_eq_nil_iff]
      intro hc
      rw [hc] at h
      exact h rfl
  refine ⟨hne, ?_, ?_, ?_⟩
  · intro mass_list ppm compound_db m hm
    obtain ⟨r, hr⟩ := List.exists_mem_of_ne_nil _ (hne compound_db ppm m)
    exact ⟨r, List.mem_flatMap.mpr ⟨m, hm, hr⟩,
      mass_rows_for_query_mass compound_db ppm m r hr⟩
  · intro mass_list ppm compound_db m c hm hc hwin
    refine List.mem_flatMap.mpr ⟨m, hm, ?_⟩
    rw [mass_rows_for]
    have hcf : c ∈ compound_db.filter
        (fun c => |c.mono_isotopic_molecular_weight - m| ≤ ppm_window_error m ppm) :=
      List.mem_filter.mpr ⟨hc, by simpa using hwin⟩
    rw [if_neg (by
      intro hempty
      rw [List.isEmpty_iff] at hempty
      rw [hempty] at hcf
      simp at hcf)]
    exact List.mem_map.mpr ⟨c, hcf, rfl⟩
  · intro compound_db ppm m hfilter
    rw [mass_rows_for, hfilter]
    rfl

/-- C7 witness: observed mass 180.0634 with ppm tolerance 10 against a
database holding a compound of mass 180.0633 — within the window — and
the mass block is nonempty. -/
theorem accurate_mass_search_spec_witness :
    ((⟨1800634/10000, some (1800633/10000),
        some (ppm_error (1800634/10000) (1800633/10000)), "GLC",
        some (10 + 1 - ppm_error (1800634/10000) (1800633/10000))⟩ : MassRow)
      ∈ accurate_mass_search [1800634/10000] 10 [⟨1800633/10000, "GLC"⟩]) ∧
    mass_rows_for [⟨1800633/10000, "GLC"⟩] 10 (1800634/10000) ≠ [] :=
  ⟨accurate_mass_search_spec.2.2.1 [1800634/10000] 10 [⟨1800633/10000, "GLC"⟩]
      (1800634/10000) ⟨1800633/10000, "GLC"⟩ (List.mem_singleton.mpr rfl)
      (List.mem_singleton.mpr rfl)
      (by
        show |(1800633 : ℚ)/10000 - 1800634/10000| ≤ ppm_window_error (1800634/10000) 10
        rw [ppm_window_error, abs_le]
        norm_num),
    accurate_mass_search_spec.1 [⟨1800633/10000, "GLC"⟩] 10 (1800634/10000)⟩

/-! ### Final integrated score (magi_workflow_scoring.magi_score,
lines 267-309) -/

/-- Embedding of magi_score: weights default to all-ones when not
supplied (np.isnan(weights).all() on the default), the weights array
must have the same shape as the scores array (RuntimeError modelled as
none), and the result is exp(sum(weights * ln(scores)) / sum(weights)). -/
noncomputable def magi_score (scores : List ℝ) (weights : Option (List ℝ)) : Option ℝ :=
  let w := match weights with
    | none => List.replicate scores.length 1
    | some ws => ws
  if w.length = scores.length then
    some (Real.exp ((List.zipWith (fun wi si => wi * Real.log si) w scores).sum / w.sum))
  else none

/-- C8: the weighted geometric mean of two equal positive scores with
two equal positive weights is that score, and likewise with the
defaulted all-ones weights. -/
theorem magi_score_scale_covariant (s w : ℝ) (hs : 0 < s) (hw : 0 < w) :
    magi_score [s, s] (some [w, w]) = some s ∧ magi_score [s, s] none = some s := by
  have key : ∀ a : ℝ, a ≠ 0 →
      Real.exp ((a * Real.log s + (a * Real.log s + 0)) / (a + (a + 0))) = s := by
    intro a ha
    have h1 : (a * Real.log s + (a * Real.log s + 0)) / (a + (a + 0)) = Real.log s := by
      rw [add_zero, add_zero, ← two_mul, ← two_mul,
        mul_div_mul_left _ _ (by norm_num : (2 : ℝ) ≠ 0),
        mul_div_cancel_left₀ _ ha]
    rw [h1, Real.exp_log hs]
  constructor
  · show some (Real.exp ((w * Real.log s + (w * Real.log s + 0)) / (w + (w + 0)))) = some s
    rw [key w (ne_of_gt hw)]
  · show some (Real.exp ((1 * Real.log s + (1 * Real.log s + 0)) / (1 + (1 + 0)))) = some s
    rw [key 1 one_ne_zero]

/-- C8 witness: at s = 1, w = 1 the geometric mean is 1 in both the
weighted and the defaulted form. -/
theorem magi_score_scale_covariant_witness :
    (0 : ℝ) < 1 ∧
    (magi_score [1, 1] (some [1, 1]) = some 1 ∧ magi_score [1, 1] none = some 1) :=
  ⟨one_pos, magi_score_scale_covariant 1 1 one_pos one_pos⟩

/-! ### Homology score (magi_workflow_scoring.homology_score, lines
240-265, and the null-filling assignment of calculate_scores, lines
340-344) -/

/-- Embedding of homology_score per row: NaN-propagating float
arithmetic (forward + reverse) - abs(forward - reverse); the result is
NaN when either input is NaN. -/
def homology_score (forward reverse : Option ℝ) : Option ℝ :=
  match forward, reverse with
  | some f, some r => some ((f + r) - |f - r|)
  | _, _ => none

/-- The assignment score[pd.isnull(score)] = 1 in calculate_scores:
rows whose homology score is null get the floor value 1. -/
def homology_score_filled (forward reverse : Option ℝ) : ℝ :=
  (homology_score forward reverse).getD 1

/-- C9: on two present scores, homology_score computes
(forward + reverse) - |forward - reverse|, which equals
2 * min(forward, reverse); a row with either score missing gets the
floor value 1 in calculate_scores. -/
theorem homology_score_spec (f r : ℝ) :
    homology_score (some f) (some r) = some ((f + r) - |f - r|) ∧
    (f + r) - |f - r| = 2 * min f r ∧
    homology_score_filled (some f) (some r) = (f + r) - |f - r| ∧
    (∀ x : Option ℝ, homology_score_filled x none = 1) ∧
    (∀ y : Option ℝ, homology_score_filled none y = 1) := by
  refine ⟨rfl, ?_, rfl, ?_, ?_⟩
  · rcases le_total f r with h | h
    · rw [abs_of_nonpos (by linarith), min_eq_left h]
      ring
    · rw [abs_of_nonneg (by linarith), min_eq_right h]
      ring
  · intro x
    cases x <;> rfl
  · intro y
    cases y <;> rfl

end Magi
